import Mathlib

/-!
Verification of the core of the `confy` configuration library.

The development shallowly embeds the Go sources:
  * `confy.go`        — key-path store (`getValue`, `setValue`, `HasKey`, `IsSet`),
                        typed getters, struct binding, change notification;
  * `internal/merge.go`  — `DeepMerge`, `mergeValues`, `DeepCopy`, `DeepCopyValue`;
  * `internal/errors.go` — the `TypeConverter` (`convertToInt`, `ToBool`, `ToString`,
                        `ToSizeInBytes`, `parseSizeString`, ...).

Modelling conventions:
  * A dynamically-typed Go value (`any`) becomes the inductive `Value`.
    `map[string]any` becomes an association list with distinct keys
    (`Tree`); a Go `nil` map and an empty map behave identically in every
    embedded operation, so both are modelled by `[]`.
  * Mutable Go heap nodes (maps and slices) carry an abstract address
    (`Nat`).  Two Go values share mutable structure exactly when their
    address sets intersect; copy functions thread an allocation counter and
    give every node they build a fresh address, mirroring `make(...)` in
    the source.  Scalars are copied by value in Go and carry no address.
  * Machine integers are modelled as `Int`/`Nat`; Go string functions
    (`strings.Split`, `strings.ToUpper`, ...) are re-implemented over
    `List Char` following their Go behaviour on the ASCII inputs the
    claims exercise.
-/

namespace Confy

/-- A dynamically-typed configuration value (`any` in the Go source).
Maps and slices carry an abstract heap address; the value shapes are the
ones `internal/merge.go` recognises: nested string-keyed maps, `[]any`,
the recognised primitive slice `[]string`, and scalars (`nil`, `string`,
integers, `bool`).  Floats, durations and `[]int`/`[]float64` are omitted:
no frozen claim distinguishes them from the embedded shapes. -/
inductive Value where
  | vnil
  | vstr (s : String)
  | vint (n : Int)
  | vbool (b : Bool)
  | vmap (addr : Nat) (entries : List (String × Value))
  | vseq (addr : Nat) (elems : List Value)
  | vstrs (addr : Nat) (elems : List String)

/-- A `map[string]any` value: an association list with (by construction in
Go) pairwise-distinct keys. -/
abbrev Tree := List (String × Value)

/-- Go map read `v, ok := m[k]`: `none` models `ok == false`. -/
def lookup : Tree → String → Option Value
  | [], _ => none
  | (k, v) :: rest, key => if k = key then some v else lookup rest key

/-- Go map write `m[k] = v`: replaces the binding if the key is present,
otherwise adds it. -/
def upsert : Tree → String → Value → Tree
  | [], key, v => [(key, v)]
  | (k, w) :: rest, key, v =>
      if k = key then (k, v) :: rest else (k, w) :: upsert rest key v

/-- The key set of a map. -/
def keys (t : Tree) : List String := t.map Prod.fst

/-- Character-level worker for `strings.Split(s, sep)` with a one-character
separator, as used by `getValue`/`setValue` with the `.` delimiter. -/
def splitChars (sep : Char) : List Char → List Char → List (List Char)
  | [], acc => [acc.reverse]
  | c :: cs, acc =>
      if c = sep then acc.reverse :: splitChars sep cs []
      else splitChars sep cs (c :: acc)

/-- `strings.Split(key, ".")` from `getValue`/`setValue` in `confy.go`. -/
def goSplitDot (s : String) : List String :=
  (splitChars '.' s.data []).map String.mk

theorem splitChars_ne_nil (sep : Char) :
    ∀ (cs acc : List Char), splitChars sep cs acc ≠ [] := by
  intro cs
  induction cs with
  | nil => intro acc; simp [splitChars]
  | cons c cs ih =>
      intro acc
      by_cases h : c = sep <;> simp [splitChars, h, ih]

theorem goSplitDot_ne_nil (s : String) : goSplitDot s ≠ [] := by
  simp [goSplitDot, splitChars_ne_nil]

/-- Segment-descent loop of `ConfyImpl.getValue` (confy.go): starting from
`current`, descend one segment at a time; a missing key yields Go `nil`
(`Value.vnil`), and descending into a non-map node returns `nil`. -/
def getValueSeg : Value → List String → Value
  | cur, [] => cur
  | cur, k :: rest =>
      match cur with
      | .vmap _ m => getValueSeg ((lookup m k).getD .vnil) rest
      | _ => .vnil

/-- `ConfyImpl.getValue(key)`: split the key on `.` and descend. -/
def getValue (data : Tree) (key : String) : Value :=
  getValueSeg (.vmap 0 data) (goSplitDot key)

/-- Segment loop of `ConfyImpl.setValue` (confy.go): the last segment sets
the leaf; a missing or non-map intermediate is replaced by a fresh map
(`last writer wins, no error`); an existing intermediate map is extended
in place (its heap address is kept). -/
def setValueSeg : Tree → List String → Value → Tree
  | m, [], _ => m
  | m, [k], v => upsert m k v
  | m, k :: k2 :: rest, v =>
      match lookup m k with
      | some (.vmap a sub) => upsert m k (.vmap a (setValueSeg sub (k2 :: rest) v))
      | _ => upsert m k (.vmap 0 (setValueSeg [] (k2 :: rest) v))

/-- `ConfyImpl.setValue(key, value)`. -/
def setValue (data : Tree) (key : String) (v : Value) : Tree :=
  setValueSeg data (goSplitDot key) v

/-- `ConfyImpl.HasKey(key)`: `getValue(key) != nil`. -/
def HasKey (data : Tree) (key : String) : Bool :=
  match getValue data key with
  | .vnil => false
  | _ => true

/-- `ConfyImpl.IsSet(key)` (confy.go): type switch over the looked-up
value; only `string`, `[]any` and `map[string]any` have an emptiness
check, every other non-nil value (including `[]string`) hits the
`default: return true` arm. -/
def IsSet (data : Tree) (key : String) : Bool :=
  match getValue data key with
  | .vnil => false
  | .vstr s => decide (s ≠ "")
  | .vseq _ l => decide (0 < l.length)
  | .vmap _ m => decide (0 < m.length)
  | _ => true

theorem lookup_upsert_self (m : Tree) (k : String) (v : Value) :
    lookup (upsert m k v) k = some v := by
  induction m with
  | nil => simp [upsert, lookup]
  | cons p rest ih =>
      obtain ⟨k', w⟩ := p
      by_cases h : k' = k <;> simp [upsert, lookup, h, ih]

theorem lookup_upsert_ne (m : Tree) (k k' : String) (v : Value) (h : k ≠ k') :
    lookup (upsert m k v) k' = lookup m k' := by
  induction m with
  | nil => simp [upsert, lookup, h]
  | cons p rest ih =>
      obtain ⟨k0, w⟩ := p
      by_cases h0 : k0 = k
      · subst h0
        simp [upsert, lookup, h]
      · simp only [upsert, lookup, if_neg h0]
        by_cases h1 : k0 = k' <;> simp [h1, ih]

theorem getValueSeg_setValueSeg :
    ∀ (segs : List String), segs ≠ [] →
      ∀ (a : Nat) (t : Tree) (v : Value),
        getValueSeg (.vmap a (setValueSeg t segs v)) segs = v := by
  intro segs
  induction segs with
  | nil => intro h; exact absurd rfl h
  | cons k rest ih =>
      intro _ a t v
      cases rest with
      | nil =>
          simp [setValueSeg, getValueSeg, lookup_upsert_self]
      | cons k2 rest2 =>
          have hne : k2 :: rest2 ≠ [] := by simp
          match hl : lookup t k with
          | some (.vmap b sub) =>
              simp only [setValueSeg, hl, getValueSeg, lookup_upsert_self,
                Option.getD_some]
              exact ih hne b sub v
          | some .vnil | some (.vstr _) | some (.vint _) | some (.vbool _)
          | some (.vseq _ _) | some (.vstrs _ _) | none =>
              simp only [setValueSeg, hl, getValueSeg, lookup_upsert_self,
                Option.getD_some]
              exact ih hne 0 [] v

/-- C8: starting from an empty tree, `Set("a.b.c", "v")` creates the
intermediate trees: afterwards `Get("a.b.c") == "v"`, `Get("a.b")` is a
one-key tree, `HasKey("a.b.c")` is true and `HasKey("a.x")` is false; and
in general `Set` splits the path on the delimiter, creates a fresh tree
for every missing intermediate segment, overwrites any non-tree
intermediate with a fresh tree without error, and sets the leaf, so that
reading the same path back always yields the written value. -/
theorem c8_set_creates_path :
    (∀ (t : Tree) (key : String) (v : Value),
        getValue (setValue t key v) key = v)
    ∧ getValue (setValue [] "a.b.c" (.vstr "v")) "a.b.c" = .vstr "v"
    ∧ getValue (setValue [] "a.b.c" (.vstr "v")) "a.b" = .vmap 0 [("c", .vstr "v")]
    ∧ HasKey (setValue [] "a.b.c" (.vstr "v")) "a.b.c" = true
    ∧ HasKey (setValue [] "a.b.c" (.vstr "v")) "a.x" = false
    ∧ getValue (setValue [("a", .vint 1)] "a.b" (.vstr "w")) "a.b" = .vstr "w" := by
  refine ⟨?_, rfl, rfl, rfl, rfl, rfl⟩
  intro t key v
  exact getValueSeg_setValueSeg (goSplitDot key) (goSplitDot_ne_nil key) 0 t v

/-- C9 counterexample: the tree `{k: []string{}}` stores an empty
(homogeneous) sequence, yet `IsSet("k")` returns `true`, because the Go
type switch in `IsSet` checks emptiness only for `string`, `[]any` and
`map[string]any`; `[]string` falls into the `default: return true` arm.
The claim, which demands `false` for every empty sequence, is therefore
false. -/
theorem c9_isset_counterexample :
    getValue [("k", .vstrs 7 [])] "k" = .vstrs 7 []
    ∧ IsSet [("k", .vstrs 7 [])] "k" = true := ⟨rfl, rfl⟩

/-- C9 amended: `IsSet(path)` is true iff the value at the path is
non-nil and is not an empty `string`, not an empty heterogeneous sequence
(`[]any`), and not an empty tree; a typed primitive sequence such as
`[]string` counts as set even when empty, and `0` and `false` count as
set. -/
theorem c9_isset_amended (t : Tree) (key : String) :
    IsSet t key = true ↔
      (getValue t key ≠ .vnil
        ∧ getValue t key ≠ .vstr ""
        ∧ (∀ a, getValue t key ≠ .vseq a [])
        ∧ (∀ a, getValue t key ≠ .vmap a [])) := by
  unfold IsSet
  match h : getValue t key with
  | .vnil => simp
  | .vstr s =>
      constructor
      · intro hs
        refine ⟨by simp, ?_, by simp, by simp⟩
        simpa using hs
      · rintro ⟨-, h2, -, -⟩
        simpa using h2
  | .vint n => simp
  | .vbool b => simp
  | .vmap a m =>
      simp only [decide_eq_true_eq, List.length_pos]
      constructor
      · intro hm
        refine ⟨by simp, by simp, by simp, ?_⟩
        intro a'
        simp [Value.vmap.injEq, hm]
      · rintro ⟨-, -, -, h4⟩
        have := h4 a
        simpa [Value.vmap.injEq] using this
  | .vseq a l =>
      simp only [decide_eq_true_eq, List.length_pos]
      constructor
      · intro hl
        refine ⟨by simp, by simp, ?_, by simp⟩
        intro a'
        simp [Value.vseq.injEq, hl]
      · rintro ⟨-, -, h3, -⟩
        have := h3 a
        simpa [Value.vseq.injEq] using this
  | .vstrs a l => simp

/-! ## Merge engine (`internal/merge.go`)

The copy and merge functions thread an allocation counter: every Go
`make(map...)`/`make([]...)` they perform is modelled by stamping the new
node with the current counter value and bumping it.  A Go `nil` map and an
empty map behave identically in `DeepMerge`/`DeepCopy` (merging with a nil
side returns a copy of the other side, which is exactly what the loop
produces for an empty side), so both are modelled by `[]`. -/

mutual

/-- `MergeUtil.DeepCopyValue` (merge.go): deep copy of a dynamic value.
Maps recurse entry-wise, `[]any` recurses element-wise, `[]string` is
copied with `copy(result, v)` into a fresh backing array; scalars are
returned as-is (copied by value in Go). -/
def DeepCopyValue : Value → Nat → Value × Nat
  | .vnil, n => (.vnil, n)
  | .vstr s, n => (.vstr s, n)
  | .vint k, n => (.vint k, n)
  | .vbool b, n => (.vbool b, n)
  | .vmap _ m, n =>
      ((.vmap n (DeepCopyEntries m (n + 1)).1), (DeepCopyEntries m (n + 1)).2)
  | .vseq _ l, n =>
      ((.vseq n (DeepCopyElems l (n + 1)).1), (DeepCopyElems l (n + 1)).2)
  | .vstrs _ l, n => (.vstrs n l, n + 1)

/-- Entry loop of `MergeUtil.DeepCopy`: copy each value of the map. -/
def DeepCopyEntries : List (String × Value) → Nat → List (String × Value) × Nat
  | [], n => ([], n)
  | (k, v) :: rest, n =>
      ((k, (DeepCopyValue v n).1) ::
          (DeepCopyEntries rest (DeepCopyValue v n).2).1,
        (DeepCopyEntries rest (DeepCopyValue v n).2).2)

/-- Element loop of `MergeUtil.deepCopySlice`. -/
def DeepCopyElems : List Value → Nat → List Value × Nat
  | [], n => ([], n)
  | v :: rest, n =>
      ((DeepCopyValue v n).1 :: (DeepCopyElems rest (DeepCopyValue v n).2).1,
        (DeepCopyElems rest (DeepCopyValue v n).2).2)

end

/-- `MergeUtil.DeepCopy` (merge.go): copy a map entry-wise. -/
def DeepCopy (src : Tree) (n : Nat) : Tree × Nat := DeepCopyEntries src n

mutual

/-- The `for key, newValue := range new` loop of `MergeUtil.DeepMerge`
(merge.go): a key present in the accumulated result is combined with
`mergeValues`, a fresh key is deep-copied in. -/
def DeepMergeGo (acc : Tree) (l : List (String × Value)) (n : Nat) : Tree × Nat :=
  match l with
  | [] => (acc, n)
  | (key, nv) :: rest =>
      match lookup acc key with
      | some ev =>
          DeepMergeGo (upsert acc key (mergeValues ev nv n).1) rest
            (mergeValues ev nv n).2
      | none =>
          DeepMergeGo (upsert acc key (DeepCopyValue nv n).1) rest
            (DeepCopyValue nv n).2

/-- `MergeUtil.mergeValues` (merge.go).  The source checks, in order:
`new == nil` (explicit null override wins), `existing == nil` (use a deep
copy of `new`), both values maps (recurse via `DeepMerge`), and otherwise
replaces with a deep copy of `new`.  The `existing == nil` arm and the
final default arm both return `DeepCopyValue(new)`, so the embedding
writes them as one catch-all arm; and the recursive `DeepMerge(em, nm)`
call is written with `DeepMerge`'s one-line body (deep-copy the existing
map, then fold the incoming entries) inlined, so that the mutual
recursion is structural — `DeepMerge` itself, defined just below, is
definitionally that expression. -/
def mergeValues (ex nw : Value) (n : Nat) : Value × Nat :=
  match ex, nw with
  | _, .vnil => (.vnil, n)
  | .vmap _ em, .vmap _ nm =>
      ((.vmap n (DeepMergeGo (DeepCopyEntries em (n + 1)).1 nm
          (DeepCopyEntries em (n + 1)).2).1),
        (DeepMergeGo (DeepCopyEntries em (n + 1)).1 nm
          (DeepCopyEntries em (n + 1)).2).2)
  | _, _ => DeepCopyValue nw n

end

/-- `MergeUtil.DeepMerge` (merge.go): start from a deep copy of
`existing`, then fold the entries of `new` over it. -/
def DeepMerge (existing nw : Tree) (n : Nat) : Tree × Nat :=
  DeepMergeGo (DeepCopyEntries existing n).1 nw (DeepCopyEntries existing n).2

theorem mergeValues_map_map (aA aB : Nat) (em nm : List (String × Value)) (n : Nat) :
    mergeValues (.vmap aA em) (.vmap aB nm) n
      = ((.vmap n (DeepMerge em nm (n + 1)).1), (DeepMerge em nm (n + 1)).2) := rfl

mutual

/-- Abstract heap addresses reachable inside a value: the mutable Go nodes
(maps and slices) it contains. -/
def addrsV : Value → List Nat
  | .vnil => []
  | .vstr _ => []
  | .vint _ => []
  | .vbool _ => []
  | .vmap a m => a :: addrsEntries m
  | .vseq a l => a :: addrsElems l
  | .vstrs a _ => [a]

def addrsEntries : List (String × Value) → List Nat
  | [] => []
  | (_, v) :: rest => addrsV v ++ addrsEntries rest

def addrsElems : List Value → List Nat
  | [] => []
  | v :: rest => addrsV v ++ addrsElems rest

end

/-- Addresses reachable in a map. -/
def addrsT : Tree → List Nat := addrsEntries

mutual

/-- Erase the heap identity of a value, keeping its structure: values are
`erase`-equal exactly when Go's `reflect.DeepEqual` would call them equal. -/
def erase : Value → Value
  | .vnil => .vnil
  | .vstr s => .vstr s
  | .vint k => .vint k
  | .vbool b => .vbool b
  | .vmap _ m => .vmap 0 (eraseEntries m)
  | .vseq _ l => .vseq 0 (eraseElems l)
  | .vstrs _ l => .vstrs 0 l

def eraseEntries : List (String × Value) → List (String × Value)
  | [] => []
  | (k, v) :: rest => (k, erase v) :: eraseEntries rest

def eraseElems : List Value → List Value
  | [] => []
  | v :: rest => erase v :: eraseElems rest

end

/-- Scalar values: copied by value in Go, carrying no heap identity. -/
def isScalar : Value → Bool
  | .vnil => true
  | .vstr _ => true
  | .vint _ => true
  | .vbool _ => true
  | _ => false

/-- Map-typed values (`map[string]any` in the Go type switch). -/
def isMap : Value → Bool
  | .vmap _ _ => true
  | _ => false

theorem lookup_mem : ∀ (m : Tree) (k : String) (v : Value),
    lookup m k = some v → (k, v) ∈ m := by
  intro m
  induction m with
  | nil => intro k v h; simp [lookup] at h
  | cons p rest ih =>
      intro k v h
      obtain ⟨k0, w⟩ := p
      by_cases h0 : k0 = k
      · subst h0
        simp [lookup] at h
        simp [h]
      · simp [lookup, h0] at h
        exact List.mem_cons_of_mem _ (ih k v h)

theorem mem_keys_upsert (m : Tree) (k k' : String) (v : Value) :
    k' ∈ keys (upsert m k v) ↔ k' ∈ keys m ∨ k' = k := by
  induction m with
  | nil => simp [upsert, keys]
  | cons p rest ih =>
      obtain ⟨k0, w⟩ := p
      by_cases h0 : k0 = k
      · subst h0
        simp [upsert, keys]
        tauto
      · simp only [upsert, if_neg h0, keys, List.map_cons, List.mem_cons]
        rw [show keys (upsert rest k v) = List.map Prod.fst (upsert rest k v) from rfl] at ih
        tauto

theorem mem_addrsT_upsert (m : Tree) (k : String) (v : Value) :
    ∀ a ∈ addrsT (upsert m k v), a ∈ addrsT m ∨ a ∈ addrsV v := by
  induction m with
  | nil => intro a ha; simp [upsert, addrsT, addrsEntries] at ha; tauto
  | cons p rest ih =>
      obtain ⟨k0, w⟩ := p
      intro a ha
      by_cases h0 : k0 = k
      · subst h0
        simp only [upsert, if_pos rfl, addrsT, addrsEntries, List.mem_append] at ha ⊢
        tauto
      · simp only [upsert, if_neg h0, addrsT, addrsEntries, List.mem_append] at ha ⊢
        rcases ha with h | h
        · tauto
        · rcases ih a h with h' | h' <;> tauto

/-- Joint copy facts: the allocation counter is monotone, every address in
the output is fresh (at least the input counter), and copying preserves
the erased structure. -/
def CopyOkV (v : Value) (n : Nat) : Prop :=
  n ≤ (DeepCopyValue v n).2
  ∧ (∀ a ∈ addrsV (DeepCopyValue v n).1, n ≤ a)
  ∧ erase (DeepCopyValue v n).1 = erase v

def CopyOkE (l : List (String × Value)) (n : Nat) : Prop :=
  n ≤ (DeepCopyEntries l n).2
  ∧ (∀ a ∈ addrsEntries (DeepCopyEntries l n).1, n ≤ a)
  ∧ eraseEntries (DeepCopyEntries l n).1 = eraseEntries l

def CopyOkL (l : List Value) (n : Nat) : Prop :=
  n ≤ (DeepCopyElems l n).2
  ∧ (∀ a ∈ addrsElems (DeepCopyElems l n).1, n ≤ a)
  ∧ eraseElems (DeepCopyElems l n).1 = eraseElems l

theorem copy_meas : ∀ M : Nat,
    (∀ v n, sizeOf v ≤ M → CopyOkV v n)
    ∧ (∀ l n, sizeOf l ≤ M → CopyOkE l n)
    ∧ (∀ l n, sizeOf l ≤ M → CopyOkL l n) := by
  intro M
  induction M using Nat.strong_induction_on with
  | _ M IH =>
    refine ⟨?_, ?_, ?_⟩
    · intro v n hv
      cases v with
      | vnil => exact ⟨le_rfl, by simp [DeepCopyValue, addrsV], rfl⟩
      | vstr s => exact ⟨le_rfl, by simp [DeepCopyValue, addrsV], rfl⟩
      | vint k => exact ⟨le_rfl, by simp [DeepCopyValue, addrsV], rfl⟩
      | vbool b => exact ⟨le_rfl, by simp [DeepCopyValue, addrsV], rfl⟩
      | vmap a m =>
          have hm : sizeOf m < M := by
            have : sizeOf m < sizeOf (Value.vmap a m) := by
              simp [Value.vmap.sizeOf_spec] <;> omega
            omega
          obtain ⟨h1, h2, h3⟩ := (IH (sizeOf m) hm).2.1 m (n + 1) le_rfl
          refine ⟨?_, ?_, ?_⟩
          · simp only [DeepCopyValue]; omega
          · intro x hx
            simp only [DeepCopyValue, addrsV, List.mem_cons] at hx
            rcases hx with rfl | hx
            · exact le_rfl
            · exact le_trans (Nat.le_succ n) (h2 x hx)
          · simp only [DeepCopyValue, erase, h3]
      | vseq a l =>
          have hl : sizeOf l < M := by
            have : sizeOf l < sizeOf (Value.vseq a l) := by
              simp [Value.vseq.sizeOf_spec] <;> omega
            omega
          obtain ⟨h1, h2, h3⟩ := (IH (sizeOf l) hl).2.2 l (n + 1) le_rfl
          refine ⟨?_, ?_, ?_⟩
          · simp only [DeepCopyValue]; omega
          · intro x hx
            simp only [DeepCopyValue, addrsV, List.mem_cons] at hx
            rcases hx with rfl | hx
            · exact le_rfl
            · exact le_trans (Nat.le_succ n) (h2 x hx)
          · simp only [DeepCopyValue, erase, h3]
      | vstrs a l =>
          exact ⟨Nat.le_succ n, by simp [DeepCopyValue, addrsV], rfl⟩
    · intro l n hl
      cases l with
      | nil => exact ⟨le_rfl, by simp [DeepCopyEntries, addrsEntries], rfl⟩
      | cons p rest =>
          obtain ⟨k, v⟩ := p
          have hv : sizeOf v < M := by
            have : sizeOf v < sizeOf ((k, v) :: rest) := by
              simp <;> omega
            omega
          have hrest : sizeOf rest < M := by
            have : sizeOf rest < sizeOf ((k, v) :: rest) := by
              simp <;> omega
            omega
          obtain ⟨hv1, hv2, hv3⟩ := (IH (sizeOf v) hv).1 v n le_rfl
          obtain ⟨hr1, hr2, hr3⟩ :=
            (IH (sizeOf rest) hrest).2.1 rest (DeepCopyValue v n).2 le_rfl
          refine ⟨?_, ?_, ?_⟩
          · simp only [DeepCopyEntries]; omega
          · intro x hx
            simp only [DeepCopyEntries, addrsEntries, List.mem_append] at hx
            rcases hx with hx | hx
            · exact hv2 x hx
            · exact le_trans hv1 (hr2 x hx)
          · simp only [DeepCopyEntries, eraseEntries, hv3, hr3]
    · intro l n hl
      cases l with
      | nil => exact ⟨le_rfl, by simp [DeepCopyElems, addrsElems], rfl⟩
      | cons v rest =>
          have hv : sizeOf v < M := by
            have : sizeOf v < sizeOf (v :: rest) := by simp <;> omega
            omega
          have hrest : sizeOf rest < M := by
            have : sizeOf rest < sizeOf (v :: rest) := by simp <;> omega
            omega
          obtain ⟨hv1, hv2, hv3⟩ := (IH (sizeOf v) hv).1 v n le_rfl
          obtain ⟨hr1, hr2, hr3⟩ :=
            (IH (sizeOf rest) hrest).2.2 rest (DeepCopyValue v n).2 le_rfl
          refine ⟨?_, ?_, ?_⟩
          · simp only [DeepCopyElems]; omega
          · intro x hx
            simp only [DeepCopyElems, addrsElems, List.mem_append] at hx
            rcases hx with hx | hx
            · exact hv2 x hx
            · exact le_trans hv1 (hr2 x hx)
          · simp only [DeepCopyElems, eraseElems, hv3, hr3]

theorem copyV_ok (v : Value) (n : Nat) : CopyOkV v n :=
  (copy_meas (sizeOf v)).1 v n le_rfl

theorem copyE_ok (l : List (String × Value)) (n : Nat) : CopyOkE l n :=
  (copy_meas (sizeOf l)).2.1 l n le_rfl

theorem erase_copyV (v : Value) (n : Nat) :
    erase (DeepCopyValue v n).1 = erase v := (copyV_ok v n).2.2

theorem copy_scalar (v : Value) (n : Nat) (h : isScalar v = true) :
    DeepCopyValue v n = (v, n) := by
  cases v <;> simp_all [isScalar, DeepCopyValue]

theorem lookup_copy : ∀ (A : Tree) (k : String) (n : Nat),
    (lookup (DeepCopyEntries A n).1 k).map erase = (lookup A k).map erase := by
  intro A
  induction A with
  | nil => intro k n; simp [DeepCopyEntries, lookup]
  | cons p rest ih =>
      intro k n
      obtain ⟨k0, v⟩ := p
      by_cases h0 : k0 = k
      · subst h0
        simp [DeepCopyEntries, lookup, erase_copyV]
      · simp [DeepCopyEntries, lookup, h0, ih]

theorem keys_eraseEntries : ∀ (l : List (String × Value)),
    keys (eraseEntries l) = keys l := by
  intro l
  induction l with
  | nil => rfl
  | cons p rest ih =>
      obtain ⟨k, v⟩ := p
      simp [eraseEntries, keys] at ih ⊢
      exact ih

theorem keys_copyE : ∀ (l : List (String × Value)) (n : Nat),
    keys (DeepCopyEntries l n).1 = keys l := by
  intro l
  induction l with
  | nil => intro n; rfl
  | cons p rest ih =>
      intro n
      obtain ⟨k, v⟩ := p
      simp [DeepCopyEntries, keys] at ih ⊢
      exact ih _

theorem keys_cons (k0 : String) (v : Value) (rest : Tree) :
    keys ((k0, v) :: rest) = k0 :: keys rest := rfl

theorem mem_keys_go : ∀ (l : List (String × Value)) (acc : Tree) (n : Nat) (k : String),
    k ∈ keys (DeepMergeGo acc l n).1 ↔ k ∈ keys acc ∨ k ∈ keys l := by
  intro l
  induction l with
  | nil => intro acc n k; simp [DeepMergeGo, keys]
  | cons p rest ih =>
      intro acc n k
      obtain ⟨key, nv⟩ := p
      simp only [DeepMergeGo]
      rcases hl : lookup acc key with _ | ev <;>
        · rw [ih, mem_keys_upsert, keys_cons, List.mem_cons]
          tauto

theorem mem_keys_DeepMerge (A B : Tree) (n : Nat) (k : String) :
    k ∈ keys (DeepMerge A B n).1 ↔ k ∈ keys A ∨ k ∈ keys B := by
  simp [DeepMerge, mem_keys_go, keys_copyE]

theorem go_lookup_notmem : ∀ (l : List (String × Value)) (acc : Tree) (n : Nat)
    (k : String), k ∉ keys l →
    lookup (DeepMergeGo acc l n).1 k = lookup acc k := by
  intro l
  induction l with
  | nil => intro acc n k _; simp [DeepMergeGo]
  | cons p rest ih =>
      intro acc n k hk
      obtain ⟨key, nv⟩ := p
      simp only [keys, List.map_cons, List.mem_cons] at hk
      push_neg at hk
      obtain ⟨hk1, hk2⟩ := hk
      have hk2' : k ∉ keys rest := by simpa [keys] using hk2
      simp only [DeepMergeGo]
      rcases hl : lookup acc key with _ | ev <;>
        · rw [ih _ _ _ hk2', lookup_upsert_ne _ _ _ _ (fun h => hk1 h.symm)]

/-- One step of the merge loop for a key found in `new`: present keys go
through `mergeValues`, absent keys through `DeepCopyValue` (proof-side
packaging of the two branches of the loop in `DeepMerge`). -/
def mergeEntry (o : Option Value) (nv : Value) (n : Nat) : Value × Nat :=
  match o with
  | some ev => mergeValues ev nv n
  | none => DeepCopyValue nv n

theorem go_lookup_mem : ∀ (l : List (String × Value)) (acc : Tree) (n : Nat)
    (k : String) (nv : Value), (keys l).Nodup → (k, nv) ∈ l →
    ∃ m, lookup (DeepMergeGo acc l n).1 k = some ((mergeEntry (lookup acc k) nv m).1) := by
  intro l
  induction l with
  | nil => intro acc n k nv _ hmem; simp at hmem
  | cons p rest ih =>
      intro acc n k nv hnd hmem
      obtain ⟨key, v0⟩ := p
      have hsplit : (∀ x : Value, (key, x) ∉ rest) ∧ (List.map Prod.fst rest).Nodup := by
        simpa [keys] using hnd
      have hnd1 : key ∉ keys rest := by
        intro hkm
        obtain ⟨v1, hmem⟩ : ∃ x : Value, (key, x) ∈ rest := by simpa [keys] using hkm
        exact hsplit.1 v1 hmem
      have hnd2 : (keys rest).Nodup := by
        simpa [keys] using hsplit.2
      rcases List.mem_cons.1 hmem with heq | htail
      · obtain ⟨h1, h2⟩ := Prod.mk.inj heq
        subst h1
        subst h2
        refine ⟨n, ?_⟩
        simp only [DeepMergeGo]
        rcases hl : lookup acc k with _ | ev
        · rw [go_lookup_notmem _ _ _ _ hnd1, lookup_upsert_self]
          simp [mergeEntry]
        · rw [go_lookup_notmem _ _ _ _ hnd1, lookup_upsert_self]
          simp [mergeEntry]
      · have hne : key ≠ k := by
          intro h
          subst h
          exact hnd1 (by simpa [keys] using List.mem_map_of_mem Prod.fst htail)
        simp only [DeepMergeGo]
        rcases hl : lookup acc key with _ | ev
        · obtain ⟨m, hm⟩ := ih (upsert acc key (DeepCopyValue v0 n).1)
            (DeepCopyValue v0 n).2 k nv hnd2 htail
          refine ⟨m, ?_⟩
          rwa [lookup_upsert_ne acc key k _ hne] at hm
        · obtain ⟨m, hm⟩ := ih (upsert acc key (mergeValues ev v0 n).1)
            (mergeValues ev v0 n).2 k nv hnd2 htail
          refine ⟨m, ?_⟩
          rwa [lookup_upsert_ne acc key k _ hne] at hm

theorem mergeValues_scalar (ev nv : Value) (n : Nat) (h : isScalar nv = true) :
    (mergeValues ev nv n).1 = nv := by
  cases nv with
  | vnil => cases ev <;> simp [mergeValues]
  | vstr s => cases ev <;> simp [mergeValues, DeepCopyValue]
  | vint k => cases ev <;> simp [mergeValues, DeepCopyValue]
  | vbool b => cases ev <;> simp [mergeValues, DeepCopyValue]
  | vmap a m => simp [isScalar] at h
  | vseq a l => simp [isScalar] at h
  | vstrs a l => simp [isScalar] at h

theorem mergeEntry_scalar (o : Option Value) (nv : Value) (n : Nat)
    (h : isScalar nv = true) : (mergeEntry o nv n).1 = nv := by
  cases o with
  | none => simp [mergeEntry, copy_scalar _ _ h]
  | some ev => simp [mergeEntry, mergeValues_scalar _ _ _ h]

theorem mergeValues_erase (ev nv : Value) (n : Nat)
    (h : ¬(isMap ev = true ∧ isMap nv = true)) :
    erase (mergeValues ev nv n).1 = erase nv := by
  cases nv <;> cases ev <;> simp_all [isMap, mergeValues, erase_copyV]

theorem mergeEntry_erase (o : Option Value) (nv : Value) (n : Nat)
    (h : ∀ ev, o = some ev → ¬(isMap ev = true ∧ isMap nv = true)) :
    erase (mergeEntry o nv n).1 = erase nv := by
  cases o with
  | none => simp [mergeEntry, erase_copyV]
  | some ev => simp [mergeEntry, mergeValues_erase ev nv n (h ev rfl)]

theorem erase_vmap_inv (w : Value) (z : Nat) (em : List (String × Value))
    (h : erase w = .vmap z em) :
    ∃ aw mw, w = .vmap aw mw ∧ eraseEntries mw = em := by
  cases w <;> simp [erase] at h
  exact ⟨_, _, rfl, h.2⟩

theorem isMap_erase (v : Value) : isMap (erase v) = isMap v := by
  cases v <;> simp [erase, isMap]

/-- C2: in `DeepMerge(existing, incoming)`, for every key present in the
incoming map, a scalar incoming value appears unchanged in the result; an
incoming explicit `nil` leaves the key present with value `nil`; the
incoming value replaces the existing one (up to heap identity) whenever
the existing and incoming values are not both maps; and when both are
maps the merge recurses, so every sub-key of either side survives in the
resulting sub-map.  In particular, when every incoming value is a scalar,
`DeepMerge(A, B)[k] == B[k]` for every key `k` of `B`. -/
theorem c2_deep_merge_override (A B : Tree) (n : Nat) (k : String) (vB : Value)
    (hnd : (keys B).Nodup) (hB : lookup B k = some vB) :
    (isScalar vB = true → lookup (DeepMerge A B n).1 k = some vB)
    ∧ (vB = .vnil → lookup (DeepMerge A B n).1 k = some .vnil)
    ∧ ((∀ aA mA, lookup A k = some (.vmap aA mA) → isMap vB = false) →
        (lookup (DeepMerge A B n).1 k).map erase = some (erase vB))
    ∧ (∀ aA mA aB mB, lookup A k = some (.vmap aA mA) → vB = .vmap aB mB →
        ∃ aR mR, lookup (DeepMerge A B n).1 k = some (.vmap aR mR)
          ∧ (∀ k2 ∈ keys mA, k2 ∈ keys mR)
          ∧ (∀ k2 ∈ keys mB, k2 ∈ keys mR)) := by
  obtain ⟨m, hm⟩ := go_lookup_mem B (DeepCopyEntries A n).1 (DeepCopyEntries A n).2
    k vB hnd (lookup_mem B k vB hB)
  have hDM : lookup (DeepMerge A B n).1 k
      = lookup (DeepMergeGo (DeepCopyEntries A n).1 B (DeepCopyEntries A n).2).1 k := by
    rw [DeepMerge]
  have p1 : isScalar vB = true → lookup (DeepMerge A B n).1 k = some vB := by
    intro hsc
    rw [hDM, hm, mergeEntry_scalar _ _ _ hsc]
  refine ⟨p1, ?_, ?_, ?_⟩
  · intro hnil
    subst hnil
    exact p1 rfl
  · intro hyp
    rw [hDM, hm]
    simp only [Option.map_some']
    congr 1
    refine mergeEntry_erase _ _ _ ?_
    intro ev hev hand
    obtain ⟨hevmap, hvBmap⟩ := hand
    have hcp := lookup_copy A k n
    rw [hev] at hcp
    simp only [Option.map_some'] at hcp
    obtain ⟨u, hu, heru⟩ : ∃ u, lookup A k = some u ∧ erase u = erase ev := by
      rcases hA : lookup A k with _ | u
      · rw [hA] at hcp; simp at hcp
      · rw [hA] at hcp; simp at hcp; exact ⟨u, rfl, hcp.symm⟩
    have humap : isMap u = true := by
      rw [← isMap_erase u, heru, isMap_erase]
      exact hevmap
    cases u with
    | vmap aA mA => exact absurd hvBmap (by simp [hyp aA mA hu])
    | vnil => simp [isMap] at humap
    | vstr s => simp [isMap] at humap
    | vint i => simp [isMap] at humap
    | vbool b => simp [isMap] at humap
    | vseq a l => simp [isMap] at humap
    | vstrs a l => simp [isMap] at humap
  · intro aA mA aB mB hA hvB
    subst hvB
    have hcp := lookup_copy A k n
    rw [hA] at hcp
    obtain ⟨w, hw, herw⟩ : ∃ w, lookup (DeepCopyEntries A n).1 k = some w
        ∧ erase w = erase (.vmap aA mA) := by
      rcases hw : lookup (DeepCopyEntries A n).1 k with _ | w
      · rw [hw] at hcp; simp at hcp
      · rw [hw] at hcp; simp at hcp; exact ⟨w, rfl, hcp⟩
    obtain ⟨aw, mw, rfl, hmw⟩ := erase_vmap_inv w 0 (eraseEntries mA)
      (by simpa [erase] using herw)
    have hkeysw : keys mw = keys mA := by
      rw [← keys_eraseEntries mw, hmw, keys_eraseEntries]
    rw [hw] at hm
    refine ⟨m, (DeepMerge mw mB (m + 1)).1, ?_, ?_, ?_⟩
    · rw [hDM, hm]
      simp [mergeEntry, mergeValues, DeepMerge]
    · intro k2 hk2
      exact (mem_keys_DeepMerge mw mB (m + 1) k2).2 (Or.inl (hkeysw ▸ hk2))
    · intro k2 hk2
      exact (mem_keys_DeepMerge mw mB (m + 1) k2).2 (Or.inr hk2)

/-- Witness for C2 at a concrete input: existing `{x:1, t:{a:1}}`,
incoming `{x:2, t:{b:3}, z:nil}`. -/
theorem c2_witness :
    (keys [("x", Value.vint 2), ("t", Value.vmap 4 [("b", Value.vint 3)]),
        ("z", Value.vnil)]).Nodup
    ∧ lookup [("x", Value.vint 2), ("t", Value.vmap 4 [("b", Value.vint 3)]),
        ("z", Value.vnil)] "x" = some (.vint 2)
    ∧ isScalar (Value.vint 2) = true
    ∧ lookup (DeepMerge [("x", Value.vint 1), ("t", Value.vmap 3 [("a", Value.vint 1)])]
        [("x", Value.vint 2), ("t", Value.vmap 4 [("b", Value.vint 3)]),
          ("z", Value.vnil)] 10).1 "x" = some (.vint 2) := by
  refine ⟨by decide, rfl, rfl, ?_⟩
  exact (c2_deep_merge_override
    [("x", Value.vint 1), ("t", Value.vmap 3 [("a", Value.vint 1)])]
    [("x", Value.vint 2), ("t", Value.vmap 4 [("b", Value.vint 3)]), ("z", Value.vnil)]
    10 "x" (Value.vint 2) (by decide) rfl).1 rfl

/-- Merge freshness, top level: counter monotone, and every address in the
merged tree is at least the starting counter. -/
def MOk (ex nw : Tree) (n : Nat) : Prop :=
  n ≤ (DeepMerge ex nw n).2 ∧ ∀ a ∈ addrsT (DeepMerge ex nw n).1, n ≤ a

/-- Merge freshness for the merge loop, generalised over a lower bound `c`
that already holds for the accumulated result. -/
def GOk (acc : Tree) (l : List (String × Value)) (n : Nat) : Prop :=
  n ≤ (DeepMergeGo acc l n).2
  ∧ ∀ c, c ≤ n → (∀ a ∈ addrsT acc, c ≤ a) →
      ∀ a ∈ addrsT (DeepMergeGo acc l n).1, c ≤ a

/-- Merge freshness for `mergeValues`. -/
def VOk (ev nv : Value) (n : Nat) : Prop :=
  n ≤ (mergeValues ev nv n).2 ∧ ∀ a ∈ addrsV (mergeValues ev nv n).1, n ≤ a

theorem merge_meas : ∀ M : Nat,
    (∀ ex nw n, 2 * sizeOf nw + 1 ≤ M → MOk ex nw n)
    ∧ (∀ acc l n, 2 * sizeOf l ≤ M → GOk acc l n)
    ∧ (∀ ev nv n, 2 * sizeOf nv ≤ M → VOk ev nv n) := by
  intro M
  induction M using Nat.strong_induction_on with
  | _ M IH =>
    refine ⟨?_, ?_, ?_⟩
    · intro ex nw n hsz
      have hgo : GOk (DeepCopyEntries ex n).1 nw (DeepCopyEntries ex n).2 :=
        (IH (2 * sizeOf nw) (by omega)).2.1 _ _ _ le_rfl
      obtain ⟨hc1, hc2, -⟩ := copyE_ok ex n
      constructor
      · rw [DeepMerge]
        exact le_trans hc1 hgo.1
      · intro a ha
        rw [DeepMerge] at ha
        exact hgo.2 n hc1 hc2 a ha
    · intro acc l n hsz
      cases l with
      | nil =>
          constructor
          · simp [DeepMergeGo]
          · intro c _ hacc a ha
            simp only [DeepMergeGo] at ha
            exact hacc a ha
      | cons p rest =>
          obtain ⟨key, nv⟩ := p
          have hszv : 2 * sizeOf nv < M := by
            have : sizeOf nv < sizeOf ((key, nv) :: rest) := by simp <;> omega
            omega
          have hszr : 2 * sizeOf rest < M := by
            have : sizeOf rest < sizeOf ((key, nv) :: rest) := by simp <;> omega
            omega
          rcases hl : lookup acc key with _ | ev
          · have hcv := copyV_ok nv n
            have hrest : GOk (upsert acc key (DeepCopyValue nv n).1) rest
                (DeepCopyValue nv n).2 :=
              (IH (2 * sizeOf rest) hszr).2.1 _ _ _ le_rfl
            constructor
            · simp only [DeepMergeGo, hl]
              exact le_trans hcv.1 hrest.1
            · intro c hcn hacc a ha
              simp only [DeepMergeGo, hl] at ha
              refine hrest.2 c (le_trans hcn hcv.1) ?_ a ha
              intro x hx
              rcases mem_addrsT_upsert acc key _ x hx with h | h
              · exact hacc x h
              · exact le_trans hcn (hcv.2.1 x h)
          · have hmv : VOk ev nv n := (IH (2 * sizeOf nv) hszv).2.2 _ _ _ le_rfl
            have hrest : GOk (upsert acc key (mergeValues ev nv n).1) rest
                (mergeValues ev nv n).2 :=
              (IH (2 * sizeOf rest) hszr).2.1 _ _ _ le_rfl
            constructor
            · simp only [DeepMergeGo, hl]
              exact le_trans hmv.1 hrest.1
            · intro c hcn hacc a ha
              simp only [DeepMergeGo, hl] at ha
              refine hrest.2 c (le_trans hcn hmv.1) ?_ a ha
              intro x hx
              rcases mem_addrsT_upsert acc key _ x hx with h | h
              · exact hacc x h
              · exact le_trans hcn (hmv.2 x h)
    · intro ev nv n hsz
      cases nv with
      | vnil =>
          cases ev <;>
            exact ⟨by simp [mergeValues], by simp [mergeValues, addrsV]⟩
      | vmap aB nm =>
          cases ev with
          | vmap aA em =>
              have hdm : MOk em nm (n + 1) := by
                refine (IH (2 * sizeOf nm + 1) ?_).1 _ _ _ le_rfl
                have : sizeOf nm < sizeOf (Value.vmap aB nm) := by
                  simp [Value.vmap.sizeOf_spec] <;> omega
                omega
              constructor
              · simp only [mergeValues]
                exact le_trans (Nat.le_succ n) hdm.1
              · intro a ha
                simp only [mergeValues, addrsV, List.mem_cons] at ha
                rcases ha with rfl | ha
                · exact le_rfl
                · exact le_trans (Nat.le_succ n) (hdm.2 a ha)
          | vnil =>
              have := copyV_ok (Value.vmap aB nm) n
              exact ⟨by simpa [mergeValues] using this.1,
                by simpa [mergeValues] using this.2.1⟩
          | vstr s =>
              have := copyV_ok (Value.vmap aB nm) n
              exact ⟨by simpa [mergeValues] using this.1,
                by simpa [mergeValues] using this.2.1⟩
          | vint i =>
              have := copyV_ok (Value.vmap aB nm) n
              exact ⟨by simpa [mergeValues] using this.1,
                by simpa [mergeValues] using this.2.1⟩
          | vbool b =>
              have := copyV_ok (Value.vmap aB nm) n
              exact ⟨by simpa [mergeValues] using this.1,
                by simpa [mergeValues] using this.2.1⟩
          | vseq a2 l2 =>
              have := copyV_ok (Value.vmap aB nm) n
              exact ⟨by simpa [mergeValues] using this.1,
                by simpa [mergeValues] using this.2.1⟩
          | vstrs a2 l2 =>
              have := copyV_ok (Value.vmap aB nm) n
              exact ⟨by simpa [mergeValues] using this.1,
                by simpa [mergeValues] using this.2.1⟩
      | vstr s =>
          cases ev <;>
            · have := copyV_ok (Value.vstr s) n
              exact ⟨by simpa [mergeValues] using this.1,
                by simpa [mergeValues] using this.2.1⟩
      | vint i =>
          cases ev <;>
            · have := copyV_ok (Value.vint i) n
              exact ⟨by simpa [mergeValues] using this.1,
                by simpa [mergeValues] using this.2.1⟩
      | vbool b =>
          cases ev <;>
            · have := copyV_ok (Value.vbool b) n
              exact ⟨by simpa [mergeValues] using this.1,
                by simpa [mergeValues] using this.2.1⟩
      | vseq a2 l2 =>
          cases ev <;>
            · have := copyV_ok (Value.vseq a2 l2) n
              exact ⟨by simpa [mergeValues] using this.1,
                by simpa [mergeValues] using this.2.1⟩
      | vstrs a2 l2 =>
          cases ev <;>
            · have := copyV_ok (Value.vstrs a2 l2) n
              exact ⟨by simpa [mergeValues] using this.1,
                by simpa [mergeValues] using this.2.1⟩

theorem DeepMerge_fresh (A B : Tree) (n : Nat) :
    ∀ a ∈ addrsT (DeepMerge A B n).1, n ≤ a :=
  ((merge_meas (2 * sizeOf B + 1)).1 A B n le_rfl).2

/-- C4: `DeepMerge(A, B)` is copy-on-write: when the allocation counter
starts above every heap address reachable in `A` and `B`, every map or
slice node of the result is freshly allocated, so the result shares no
mutable structure with either input.  Mutating the result afterwards, at
any nesting depth, therefore never changes `A` or `B`; and since the
function only writes into freshly allocated nodes, it mutates neither
input. -/
theorem c4_deep_merge_no_sharing (A B : Tree) (n : Nat)
    (hA : ∀ a ∈ addrsT A, a < n) (hB : ∀ a ∈ addrsT B, a < n) :
    ∀ a ∈ addrsT (DeepMerge A B n).1, a ∉ addrsT A ∧ a ∉ addrsT B := by
  intro a ha
  have hn := DeepMerge_fresh A B n a ha
  constructor
  · intro hmem
    have := hA a hmem
    omega
  · intro hmem
    have := hB a hmem
    omega

/-- Witness for C4 at a concrete input: existing `{t:{x:1}, s:["a"]}`,
incoming `{t:{y:["b"]}}`, counter 10. -/
theorem c4_witness :
    (∀ a ∈ addrsT [("t", Value.vmap 3 [("x", Value.vint 1)]),
        ("s", Value.vstrs 4 ["a"])], a < 10)
    ∧ (∀ a ∈ addrsT [("t", Value.vmap 5 [("y", Value.vseq 6 [Value.vstr "b"])])], a < 10)
    ∧ (∀ a ∈ addrsT (DeepMerge
        [("t", Value.vmap 3 [("x", Value.vint 1)]), ("s", Value.vstrs 4 ["a"])]
        [("t", Value.vmap 5 [("y", Value.vseq 6 [Value.vstr "b"])])] 10).1,
        a ∉ addrsT [("t", Value.vmap 3 [("x", Value.vint 1)]),
          ("s", Value.vstrs 4 ["a"])]
        ∧ a ∉ addrsT [("t", Value.vmap 5 [("y", Value.vseq 6 [Value.vstr "b"])])]) := by
  refine ⟨by decide, by decide, ?_⟩
  exact c4_deep_merge_no_sharing
    [("t", Value.vmap 3 [("x", Value.vint 1)]), ("s", Value.vstrs 4 ["a"])]
    [("t", Value.vmap 5 [("y", Value.vseq 6 [Value.vstr "b"])])] 10
    (by decide) (by decide)

/-! ## Type converter (`internal/errors.go`)

Go's `strconv` parsers and the ASCII behaviour of `strings.ToUpper`,
`strings.TrimSpace` and `strings.HasSuffix` are re-implemented over
`List Char`.  `strconv.ParseFloat` is modelled over `ℚ` (exact where
float64 rounds; the special forms `Inf`/`NaN` and hexadecimal floats are
not modelled — no claim exercises them). -/

/-- ASCII decimal digit test. -/
def isDigitChar (c : Char) : Bool := decide ('0' ≤ c) && decide (c ≤ '9')

/-- Value of an ASCII digit. -/
def digitVal (c : Char) : Nat := c.toNat - '0'.toNat

/-- Accumulate a base-10 digit string. -/
def digitsToNat (cs : List Char) : Nat :=
  cs.foldl (fun acc c => acc * 10 + digitVal c) 0

/-- `strconv.ParseInt(s, 10, 64)`: optional sign, at least one digit,
result within the signed 64-bit range, otherwise an error (`none`). -/
def goParseInt64 (s : String) : Option Int :=
  let core : List Char → Int → Option Int := fun cs sign =>
    if cs = [] then none
    else if cs.all isDigitChar then
      let d : Int := digitsToNat cs
      if sign * d < -(2 ^ 63) ∨ 2 ^ 63 - 1 < sign * d then none
      else some (sign * d)
    else none
  match s.data with
  | '+' :: rest => core rest 1
  | '-' :: rest => core rest (-1)
  | cs => core cs 1

/-- `strconv.ParseUint(s, 10, 64)`: digits only, no sign, within the
unsigned 64-bit range. -/
def goParseUint64 (s : String) : Option Nat :=
  if s.data = [] then none
  else if s.data.all isDigitChar then
    let d := digitsToNat s.data
    if 2 ^ 64 - 1 < d then none else some d
  else none

/-- `strconv.ParseBool`: the exact literal set the Go standard library
accepts. -/
def goParseBool (s : String) : Option Bool :=
  if s = "1" ∨ s = "t" ∨ s = "T" ∨ s = "TRUE" ∨ s = "true" ∨ s = "True" then
    some true
  else if s = "0" ∨ s = "f" ∨ s = "F" ∨ s = "FALSE" ∨ s = "false" ∨ s = "False" then
    some false
  else none

/-- `strconv.ParseFloat(s, 64)`: optional sign, decimal mantissa with an
optional fraction, optional decimal exponent.  The parsed value is
represented exactly as a pair (numerator, power-of-ten denominator);
this is exact where float64 rounds, which does not affect any claim. -/
def goParseFloat (s : String) : Option (Int × Nat) :=
  let parseExp : List Char → Option Int := fun cs =>
    match cs with
    | [] => some 0
    | e :: rest =>
        if e = 'e' ∨ e = 'E' then
          let (esign, ds) : Int × List Char :=
            match rest with
            | '+' :: r => (1, r)
            | '-' :: r => (-1, r)
            | r => (1, r)
          if ds ≠ [] ∧ ds.all isDigitChar then
            some (esign * (digitsToNat ds : Int))
          else none
        else none
  let (sign, cs1) : Int × List Char :=
    match s.data with
    | '+' :: r => (1, r)
    | '-' :: r => (-1, r)
    | r => (1, r)
  let d1 := cs1.takeWhile isDigitChar
  let cs2 := cs1.dropWhile isDigitChar
  let (d2, cs3) : List Char × List Char :=
    match cs2 with
    | '.' :: r => (r.takeWhile isDigitChar, r.dropWhile isDigitChar)
    | r => ([], r)
  if d1 = [] ∧ d2 = [] then none
  else
    match parseExp cs3 with
    | none => none
    | some e =>
        let m : Int := digitsToNat (d1 ++ d2)
        let shift : Int := e - d2.length
        if 0 ≤ shift then some (sign * m * 10 ^ shift.toNat, 1)
        else some (sign * m, 10 ^ (-shift).toNat)

/-- `uint64(number * float64(multiplier))` for the parsed value `q` and a
unit multiplier: multiplication followed by truncation toward zero (the
source only produces non-negative values here; Go leaves the conversion
of a negative float to `uint64` implementation-defined). -/
def floatTimesTrunc (q : Int × Nat) (mult : Nat) : Nat :=
  ((q.1 * (mult : Int)) / (q.2 : Int)).toNat

/-- ASCII `strings.ToUpper`. -/
def goToUpper (s : String) : String :=
  ⟨s.data.map fun c =>
    if decide ('a' ≤ c) && decide (c ≤ 'z') then Char.ofNat (c.toNat - 32) else c⟩

/-- ASCII whitespace, as trimmed by `strings.TrimSpace`. -/
def isSpaceChar (c : Char) : Bool :=
  c = ' ' ∨ c = '\t' ∨ c = '\n' ∨ c = '\r'

/-- ASCII `strings.TrimSpace`. -/
def goTrimSpace (s : String) : String :=
  ⟨(s.data.dropWhile isSpaceChar).reverse.dropWhile isSpaceChar |>.reverse⟩

/-- `strings.HasSuffix`. -/
def goHasSuffix (s suffix : String) : Bool :=
  suffix.data.isSuffixOf s.data

/-- `strings.TrimSuffix` for a suffix known to be present. -/
def goTrimSuffix (s suffix : String) : String :=
  ⟨s.data.take (s.data.length - suffix.data.length)⟩

/-- The `units` map literal of `parseSizeString` (errors.go), as the set of
its entries. -/
def sizeUnits : List (String × Nat) :=
  [("B", 1), ("KB", 1024), ("MB", 1024 ^ 2), ("GB", 1024 ^ 3),
    ("TB", 1024 ^ 4), ("PB", 1024 ^ 5),
    ("K", 1000), ("M", 1000 ^ 2), ("G", 1000 ^ 3), ("T", 1000 ^ 4),
    ("P", 1000 ^ 5)]

/-- `TypeConverter.parseSizeString` (errors.go), parameterised by the order
in which `for unit, multiplier := range units` visits the map entries: Go
map iteration order is unspecified and varies between runs, so the order
is an input of the model.  The first unit in the order that is a suffix of
the upper-cased, trimmed input is used; if the remaining number prefix
fails to parse as a float the function returns that error immediately
(it does not try further units); if no unit matches, the whole string must
parse as a plain unsigned integer. -/
def parseSizeString (order : List (String × Nat)) (s : String) : Except String Nat :=
  let s2 := goToUpper (goTrimSpace s)
  if s2 = "" then .error "empty size string"
  else
    match order.find? (fun u => goHasSuffix s2 u.1) with
    | some (unit, multiplier) =>
        let numberStr := goTrimSpace (goTrimSuffix s2 unit)
        match goParseFloat numberStr with
        | some q => .ok (floatTimesTrunc q multiplier)
        | none => .error ("invalid size format " ++ s2)
    | none =>
        match goParseUint64 s2 with
        | some u => .ok u
        | none => .error ("invalid size format " ++ s2)

/-- `TypeConverter.ToSizeInBytes` (errors.go): non-negative numeric input
passes through as bytes; a string goes through `parseSizeString`;
everything else is a typed failure. -/
def ToSizeInBytes (order : List (String × Nat)) (v : Value) : Except String Nat :=
  match v with
  | .vint i => if i < 0 then .error "size cannot be negative" else .ok i.toNat
  | .vstr s => parseSizeString order s
  | _ => .error "cannot convert to size in bytes"

/-- C3 (code bug): `parseSizeString` matches units by iterating the Go map
`units` with `for unit, multiplier := range units`, whose order is
unspecified and varies between runs — not by longest suffix.  Under an
iteration order that visits `"KB"` before `"B"` the function returns
10240 for `"10KB"`, as the spec and the repository's own tests
(`TestConfy_GetSizeInBytes`, the `ToSizeInBytes` table in confy_test.go)
demand; under an order that visits `"B"` first it trims the suffix `"B"`,
fails to parse `"10K"` as a float, and returns an error.  Both orders
iterate the same map (the two lists below are permutations of each
other), so `ToSizeInBytes("10KB")` is neither deterministic nor
longest-suffix; `"1K"` only matches the unit `"K"` and yields 1000 under
both orders. -/
theorem c3_size_longest_suffix_code_bug :
    List.Perm
      [("KB", 1024), ("MB", 1024 ^ 2), ("GB", 1024 ^ 3), ("TB", 1024 ^ 4),
        ("PB", 1024 ^ 5), ("K", 1000), ("M", 1000 ^ 2), ("G", 1000 ^ 3),
        ("T", 1000 ^ 4), ("P", 1000 ^ 5), ("B", 1)]
      sizeUnits
    ∧ ToSizeInBytes
      [("KB", 1024), ("MB", 1024 ^ 2), ("GB", 1024 ^ 3), ("TB", 1024 ^ 4),
        ("PB", 1024 ^ 5), ("K", 1000), ("M", 1000 ^ 2), ("G", 1000 ^ 3),
        ("T", 1000 ^ 4), ("P", 1000 ^ 5), ("B", 1)]
      (.vstr "10KB") = .ok 10240
    ∧ ToSizeInBytes sizeUnits (.vstr "10KB") = .error "invalid size format 10KB"
    ∧ ToSizeInBytes
      [("KB", 1024), ("MB", 1024 ^ 2), ("GB", 1024 ^ 3), ("TB", 1024 ^ 4),
        ("PB", 1024 ^ 5), ("K", 1000), ("M", 1000 ^ 2), ("G", 1000 ^ 3),
        ("T", 1000 ^ 4), ("P", 1000 ^ 5), ("B", 1)]
      (.vstr "1K") = .ok 1000
    ∧ ToSizeInBytes sizeUnits (.vstr "1K") = .ok 1000 := by
  refine ⟨by decide, rfl, rfl, rfl, rfl⟩

/-- `String.intercalate " "` helper for the `%v` layout of `[]string`. -/
def sepSpace (l : List String) : String := String.intercalate " " l

mutual

/-- Approximation of `fmt.Sprintf` with `%v` used by the `default` arm of
`ToString`: Go renders maps as `map[k:v ...]` (with sorted keys) and
slices as `[e ...]`; the embedding keeps map entry order.  No frozen
claim depends on this text. -/
def sprintV : Value → String
  | .vnil => "<nil>"
  | .vstr s => s
  | .vint n => toString n
  | .vbool b => if b then "true" else "false"
  | .vmap _ m => "map[" ++ sprintEntries m ++ "]"
  | .vseq _ l => "[" ++ sprintElems l ++ "]"
  | .vstrs _ l => "[" ++ sepSpace l ++ "]"

def sprintEntries : List (String × Value) → String
  | [] => ""
  | [(k, v)] => k ++ ":" ++ sprintV v
  | (k, v) :: rest => k ++ ":" ++ sprintV v ++ " " ++ sprintEntries rest

def sprintElems : List Value → String
  | [] => ""
  | [v] => sprintV v
  | v :: rest => sprintV v ++ " " ++ sprintElems rest

end

/-- `TypeConverter.ToString` (errors.go): never fails; `nil` becomes `""`,
numbers render in decimal, booleans via `strconv.FormatBool`, and
the remaining composite shapes fall to the `default` arm
(`fmt.Sprintf` with `%v`). -/
def ToString (v : Value) : String :=
  match v with
  | .vnil => ""
  | .vstr s => s
  | .vint n => toString n
  | .vbool b => if b then "true" else "false"
  | v => sprintV v

/-- `TypeConverter.ToBool` (errors.go): booleans pass through, integers
compare their decimal rendering with `"0"`, strings first try
`strconv.ParseBool` and then the literal alias tables (the `lower`
variable is, as in the source, never actually lower-cased). -/
def ToBool : Value → Except String Bool
  | .vnil => .error "cannot convert nil to bool"
  | .vbool b => .ok b
  | .vint n => .ok (decide (n ≠ 0))
  | .vstr s =>
      match goParseBool s with
      | some b => .ok b
      | none =>
          if s = "yes" ∨ s = "y" ∨ s = "on" ∨ s = "1" then .ok true
          else if s = "no" ∨ s = "n" ∨ s = "off" ∨ s = "0" ∨ s = "" then .ok false
          else .error "cannot convert string to bool"
  | _ => .error "cannot convert to bool"

/-- `convertToInt` (errors.go) at 64-bit width, which is what `GetInt`
(platform int) and `GetInt64` use: numeric values pass through, booleans
become 0/1, strings go through `strconv.ParseInt(s, 10, 64)`, and the
composite shapes hit the `default` error arm. -/
def convertToInt64 : Value → Except String Int
  | .vnil => .error "cannot convert nil to int"
  | .vint i => .ok i
  | .vbool b => .ok (if b then 1 else 0)
  | .vstr s =>
      match goParseInt64 s with
      | some i => .ok i
      | none => .error "cannot convert string to int"
  | _ => .error "cannot convert to int"

/-- `convertToUint` (errors.go) at 64-bit width: a negative signed
input is a typed failure, booleans become 0/1, strings go through
`strconv.ParseUint(s, 10, 64)`. -/
def convertToUint64 : Value → Except String Nat
  | .vnil => .error "cannot convert nil to uint"
  | .vint i =>
      if i < 0 then .error "cannot convert negative int to unsigned"
      else .ok i.toNat
  | .vbool b => .ok (if b then 1 else 0)
  | .vstr s =>
      match goParseUint64 s with
      | some u => .ok u
      | none => .error "cannot convert string to uint"
  | _ => .error "cannot convert to uint"

/-- `TypeConverter.ToStringSlice` (errors.go): `[]string` passes through,
`[]any` converts element-wise with `ToString`, a single string is
promoted to a one-element slice. -/
def ToStringSlice : Value → Except String (List String)
  | .vnil => .error "cannot convert nil to string slice"
  | .vstrs _ l => .ok l
  | .vseq _ l => .ok (l.map ToString)
  | .vstr s => .ok [s]
  | _ => .error "cannot convert to string slice"

/-! ## Simple typed getters (confy.go)

Each getter follows the same shape as the source: read the value at the
key, fall back to the optional variadic default (or the type's zero
value) when the value is `nil`, convert, and fall back the same way when
conversion fails.  The Go variadic `defaultValue ...T` is a list whose
head, if any, is the explicit default. -/

/-- `ConfyImpl.GetString`. -/
def GetString (data : Tree) (key : String) (dflt : List String) : String :=
  match getValue data key with
  | .vnil => dflt.headD ""
  | v => ToString v

/-- `ConfyImpl.GetInt` (64-bit platform `int`). -/
def GetInt (data : Tree) (key : String) (dflt : List Int) : Int :=
  match getValue data key with
  | .vnil => dflt.headD 0
  | v =>
      match convertToInt64 v with
      | .ok i => i
      | .error _ => dflt.headD 0

/-- `ConfyImpl.GetBool`. -/
def GetBool (data : Tree) (key : String) (dflt : List Bool) : Bool :=
  match getValue data key with
  | .vnil => dflt.headD false
  | v =>
      match ToBool v with
      | .ok b => b
      | .error _ => dflt.headD false

/-- `ConfyImpl.GetUint64`. -/
def GetUint64 (data : Tree) (key : String) (dflt : List Nat) : Nat :=
  match getValue data key with
  | .vnil => dflt.headD 0
  | v =>
      match convertToUint64 v with
      | .ok u => u
      | .error _ => dflt.headD 0

/-- `ConfyImpl.GetSizeInBytes`, parameterised like `parseSizeString` by the
unit-map iteration order. -/
def GetSizeInBytes (order : List (String × Nat)) (data : Tree) (key : String)
    (dflt : List Nat) : Nat :=
  match getValue data key with
  | .vnil => dflt.headD 0
  | v =>
      match ToSizeInBytes order v with
      | .ok u => u
      | .error _ => dflt.headD 0

/-- `ConfyImpl.GetStringSlice` (a Go `nil` slice and the empty slice are
both modelled by `[]`). -/
def GetStringSlice (data : Tree) (key : String) (dflt : List (List String)) :
    List String :=
  match getValue data key with
  | .vnil => dflt.headD []
  | v =>
      match ToStringSlice v with
      | .ok l => l
      | .error _ => dflt.headD []

/-- C5: the simple typed getters never return an error: when the key is
missing (lookup yields `nil`) they return the caller's explicit default
if one was given and the type's zero value otherwise; when the stored
value fails to convert they fall back the same way; and when conversion
succeeds they return the converted value.  Stated for the embedded
representatives `GetString`, `GetInt`, `GetBool`, `GetUint64`,
`GetSizeInBytes` (under every unit-map iteration order) and
`GetStringSlice`; the remaining width variants in the source are the same
wrapper around the same generic converters. -/
theorem c5_simple_getters_fall_back (data : Tree) (key : String) :
    (getValue data key = .vnil →
      (∀ ds : List String, GetString data key ds = ds.headD "")
      ∧ (∀ di : List Int, GetInt data key di = di.headD 0)
      ∧ (∀ db : List Bool, GetBool data key db = db.headD false)
      ∧ (∀ du : List Nat, GetUint64 data key du = du.headD 0)
      ∧ (∀ ord du, GetSizeInBytes ord data key du = du.headD 0)
      ∧ (∀ dl, GetStringSlice data key dl = dl.headD []))
    ∧ (∀ v, getValue data key = v → v ≠ .vnil →
        (∀ ds, GetString data key ds = ToString v)
        ∧ (∀ di, (∀ e, convertToInt64 v = .error e → GetInt data key di = di.headD 0)
            ∧ (∀ i, convertToInt64 v = .ok i → GetInt data key di = i))
        ∧ (∀ db, (∀ e, ToBool v = .error e → GetBool data key db = db.headD false)
            ∧ (∀ b, ToBool v = .ok b → GetBool data key db = b))
        ∧ (∀ du, (∀ e, convertToUint64 v = .error e → GetUint64 data key du = du.headD 0)
            ∧ (∀ u, convertToUint64 v = .ok u → GetUint64 data key du = u))
        ∧ (∀ ord du, (∀ e, ToSizeInBytes ord v = .error e →
              GetSizeInBytes ord data key du = du.headD 0)
            ∧ (∀ u, ToSizeInBytes ord v = .ok u → GetSizeInBytes ord data key du = u))
        ∧ (∀ dl, (∀ e, ToStringSlice v = .error e →
              GetStringSlice data key dl = dl.headD [])
            ∧ (∀ l, ToStringSlice v = .ok l → GetStringSlice data key dl = l))) := by
  constructor
  · intro h
    refine ⟨?_, ?_, ?_, ?_, ?_, ?_⟩ <;> intros <;>
      simp [GetString, GetInt, GetBool, GetUint64, GetSizeInBytes, GetStringSlice, h]
  · intro v hv hvne
    cases v <;> first
      | exact absurd rfl hvne
      | (refine ⟨fun ds => by simp [GetString, hv], ?_, ?_, ?_, ?_, ?_⟩ <;>
          · intro d
            try intro du
            constructor
            · intro e he
              simp [GetInt, GetBool, GetUint64, GetSizeInBytes, GetStringSlice, hv, he]
            · intro x hx
              simp [GetInt, GetBool, GetUint64, GetSizeInBytes, GetStringSlice, hv, hx])

/-- Witness for C5 at concrete inputs: `{s:"x", n:5}` — a failed
string-to-int conversion falls back to the explicit default 7, a missing
key falls back to the explicit default, and a successful conversion
returns the stored value. -/
theorem c5_witness :
    GetInt [("s", Value.vstr "x"), ("n", Value.vint 5)] "s" [7] = 7
    ∧ GetInt [("s", Value.vstr "x"), ("n", Value.vint 5)] "n" [] = 5
    ∧ GetString [("s", Value.vstr "x"), ("n", Value.vint 5)] "missing" ["d"] = "d" := by
  refine ⟨?_, ?_, ?_⟩
  · exact (((c5_simple_getters_fall_back
      [("s", Value.vstr "x"), ("n", Value.vint 5)] "s").2
      (Value.vstr "x") rfl (by simp)).2.1 [7]).1 _ rfl
  · exact (((c5_simple_getters_fall_back
      [("s", Value.vstr "x"), ("n", Value.vint 5)] "n").2
      (Value.vint 5) rfl (by simp)).2.1 []).2 5 rfl
  · exact ((c5_simple_getters_fall_back
      [("s", Value.vstr "x"), ("n", Value.vint 5)] "missing").1 rfl).1 ["d"]

/-! ## Binding engine (confy.go)

The reflective struct binder is embedded for flat struct targets with
scalar (string / int / bool) fields — the shapes the frozen claims
exercise; every field is exported (`CanSet` holds).  Nested structs, maps
and slices recurse through the same per-field logic in the source and are
not needed by any claim. -/

/-- A Go struct field's scalar value. -/
inductive FieldVal where
  | fInt (i : Int)
  | fStr (s : String)
  | fBool (b : Bool)

/-- `reflect.Value.IsZero` for the embedded scalar kinds. -/
def FieldVal.isZero : FieldVal → Bool
  | .fInt i => decide (i = 0)
  | .fStr s => decide (s = "")
  | .fBool b => b = false

/-- A struct field as the binder sees it: Go identifier, struct tags, and
the current value. -/
structure GoField where
  name : String
  tags : List (String × String)
  val : FieldVal

/-- `reflect.StructTag.Get`: the empty string when the namespace is
absent. -/
def tagGet : List (String × String) → String → String
  | [], _ => ""
  | (n, v) :: rest, ns => if n = ns then v else tagGet rest ns

/-- `strings.Split(tag, ",")[0]`: the name portion of a tag value. -/
def splitCommaHead (s : String) : String :=
  ((splitChars ',' s.data []).map String.mk).headD ""

/-- `ConfyImpl.getFieldName` (confy.go): `yaml`, then `json`, then
`config` tag, then the Go field identifier.  A tag equal to `"-"` fails
the guard `tag != "" && tag != "-"` and resolution falls through to the
next namespace — the field is not skipped. -/
def getFieldName (f : GoField) : String :=
  let y := tagGet f.tags "yaml"
  if y ≠ "" ∧ y ≠ "-" then splitCommaHead y
  else
    let j := tagGet f.tags "json"
    if j ≠ "" ∧ j ≠ "-" then splitCommaHead j
    else
      let c := tagGet f.tags "config"
      if c ≠ "" ∧ c ≠ "-" then splitCommaHead c
      else f.name

/-- `configcore.BindOptions` (the fields the binder consults). -/
structure BindOptions where
  DefaultValue : Option Value
  UseDefaults : Bool
  TagName : String
  DeepMerge : Bool
  ErrorOnMissing : Bool
  Required : List String
  IgnoreCase : Bool

/-- `ConfyImpl.getFieldNameWithOptions` (confy.go): the configured tag
namespace (defaulting to `yaml`), then `yaml` and `json` as fallbacks,
then the Go field identifier; as in `getFieldName`, a `"-"` tag falls
through rather than skipping the field. -/
def getFieldNameWithOptions (f : GoField) (options : BindOptions) : String :=
  let tagName := if options.TagName = "" then "yaml" else options.TagName
  let t := tagGet f.tags tagName
  if t ≠ "" ∧ t ≠ "-" then splitCommaHead t
  else
    let y := tagGet f.tags "yaml"
    if tagName ≠ "yaml" ∧ y ≠ "" ∧ y ≠ "-" then splitCommaHead y
    else
      let j := tagGet f.tags "json"
      if tagName ≠ "json" ∧ j ≠ "" ∧ j ≠ "-" then splitCommaHead j
      else f.name

/-- `ConfyImpl.setDefaultValue` (confy.go) for the embedded scalar kinds:
strings take the tag literally, ints go through
`strconv.ParseInt(tag, 10, 64)`, bools through `strconv.ParseBool`. -/
def setDefaultValue (v : FieldVal) (defaultTag : String) : Except String FieldVal :=
  match v with
  | .fStr _ => .ok (.fStr defaultTag)
  | .fInt _ =>
      match goParseInt64 defaultTag with
      | some i => .ok (.fInt i)
      | none => .error "invalid int default"
  | .fBool _ =>
      match goParseBool defaultTag with
      | some b => .ok (.fBool b)
      | none => .error "invalid bool default"

/-- `ConfyImpl.applyStructDefaults` (confy.go): a field whose `default`
tag is empty or `"-"` is left alone; a field that is not at its zero
value is left alone; otherwise the parsed default literal is written, and
a malformed literal is a typed failure. -/
def applyStructDefaults : List GoField → Except String (List GoField)
  | [] => .ok []
  | f :: rest =>
      let dt := tagGet f.tags "default"
      if dt = "" ∨ dt = "-" then
        match applyStructDefaults rest with
        | .ok l => .ok (f :: l)
        | .error e => .error e
      else if f.val.isZero then
        match setDefaultValue f.val dt with
        | .ok v2 =>
            match applyStructDefaults rest with
            | .ok l => .ok (⟨f.name, f.tags, v2⟩ :: l)
            | .error e => .error e
        | .error e => .error e
      else
        match applyStructDefaults rest with
        | .ok l => .ok (f :: l)
        | .error e => .error e

/-- `ConfyImpl.setFieldValueWithDeepMerge` (confy.go), scalar arms:
strings always take `ToString` of the value; int and bool fields keep
their previous value on a conversion failure in lenient mode
(`!options.ErrorOnMissing`) and surface the failure in strict mode. -/
def setFieldValueWithDeepMerge (fv : FieldVal) (v : Value) (options : BindOptions) :
    Except String FieldVal :=
  match fv with
  | .fStr _ => .ok (.fStr (ToString v))
  | .fInt _ =>
      match convertToInt64 v with
      | .ok i => .ok (.fInt i)
      | .error e => if options.ErrorOnMissing then .error e else .ok fv
  | .fBool _ =>
      match ToBool v with
      | .ok b => .ok (.fBool b)
      | .error e => if options.ErrorOnMissing then .error e else .ok fv

/-- ASCII `strings.ToLower`, used by `findMapValueIgnoreCase`. -/
def goToLower (s : String) : String :=
  ⟨s.data.map fun c =>
    if decide ('A' ≤ c) && decide (c ≤ 'Z') then Char.ofNat (c.toNat + 32) else c⟩

/-- `ConfyImpl.findMapValueIgnoreCase` (confy.go): first key (in entry
order; Go iterates the map in unspecified order, which no claim
exercises) equal to the field name up to case. -/
def findMapValueIgnoreCase (m : Tree) (fieldName : String) : Option Value :=
  match m.find? (fun p => goToLower p.1 = goToLower fieldName) with
  | some p => some p.2
  | none => none

/-- The field loop of `ConfyImpl.bindMapToStructWithOptions` (confy.go):
resolve each field's name (an empty resolved name skips the field), look
it up (case-insensitively if requested), error on a missing required
field in strict mode, and otherwise keep whatever value defaults already
produced; a found value is written through
`setFieldValueWithDeepMerge`. -/
def bindLoop (m : Tree) (options : BindOptions) : List GoField → Except String (List GoField)
  | [] => .ok []
  | f :: rest =>
      let fieldName := getFieldNameWithOptions f options
      if fieldName = "" then
        match bindLoop m options rest with
        | .ok l => .ok (f :: l)
        | .error e => .error e
      else
        let mapVal : Option Value :=
          if options.IgnoreCase then findMapValueIgnoreCase m fieldName
          else lookup m fieldName
        match mapVal with
        | none =>
            if fieldName ∈ options.Required ∧ options.ErrorOnMissing then
              .error ("required field " ++ fieldName ++ " not found")
            else
              match bindLoop m options rest with
              | .ok l => .ok (f :: l)
              | .error e => .error e
        | some v =>
            match setFieldValueWithDeepMerge f.val v options with
            | .ok v2 =>
                match bindLoop m options rest with
                | .ok l => .ok (⟨f.name, f.tags, v2⟩ :: l)
                | .error e => .error e
            | .error e => .error e

/-- The required-field names marked `true` during the loop: a required
name is marked as soon as some struct field resolves to it, whether or
not the map contains it (faithful to the source, which marks on the
field-name check alone). -/
def requiredFieldsSeen (fields : List GoField) (options : BindOptions) : List String :=
  (fields.map (fun f => getFieldNameWithOptions f options)).filter
    (fun n => n ≠ "" ∧ n ∈ options.Required)

/-- `ConfyImpl.bindMapToStructWithOptions` (confy.go): the field loop
followed by the final required-fields validation. -/
def bindMapToStructWithOptions (m : Tree) (s : List GoField) (options : BindOptions) :
    Except String (List GoField) :=
  match bindLoop m options s with
  | .error e => .error e
  | .ok s2 =>
      if options.ErrorOnMissing ∧
          options.Required.any (fun r => ¬r ∈ requiredFieldsSeen s options) then
        .error "required field not found in configuration"
      else .ok s2

/-- `ConfyImpl.deepMergeValues` (confy.go): nil sides lose, two maps merge
through `MergeUtil.DeepMerge` (the configuration side wins), anything
else is the configuration value. -/
def deepMergeValues (defaultValue configValue : Value) : Value :=
  match defaultValue, configValue with
  | d, .vnil => d
  | .vnil, c => c
  | .vmap _ dm, .vmap _ cm => .vmap 0 (DeepMerge dm cm 0).1
  | _, c => c

/-- The `target` argument of `bindValue`/`bindValueWithOptions` as the
reflection prefix of the source sees it.  `reflect.ValueOf(nil)` is the
zero `Value` with `Kind() == Invalid` (not `Ptr`); a typed nil pointer
has `Kind() == Ptr` but `Elem()` returns the zero `Value`. -/
inductive Target where
  | nonPointer
  | nilInterface
  | nilPointer
  | ptrToStruct (s : List GoField)

/-- Outcome of a bind call: a bound struct, a typed error, or a Go
runtime panic. -/
inductive BindOutcome where
  | ok (s : List GoField)
  | err (msg : String)
  | panics

/-- Plain `ConfyImpl.setFieldValue` (confy.go), scalar arms: a conversion
failure is silently ignored and the field keeps its previous value. -/
def setFieldValue (fv : FieldVal) (v : Value) : FieldVal :=
  match fv with
  | .fStr _ => .fStr (ToString v)
  | .fInt i0 =>
      match convertToInt64 v with
      | .ok i => .fInt i
      | .error _ => .fInt i0
  | .fBool b0 =>
      match ToBool v with
      | .ok b => .fBool b
      | .error _ => .fBool b0

/-- Field loop of plain `ConfyImpl.bindMapToStruct` (confy.go): a missing
key errors only when the field carries `required:"true"`. -/
def bindLoopPlain (m : Tree) : List GoField → Except String (List GoField)
  | [] => .ok []
  | f :: rest =>
      let fieldName := getFieldName f
      if fieldName = "" then
        match bindLoopPlain m rest with
        | .ok l => .ok (f :: l)
        | .error e => .error e
      else
        match lookup m fieldName with
        | none =>
            if tagGet f.tags "required" = "true" then
              .error ("required field " ++ fieldName ++ " is missing")
            else
              match bindLoopPlain m rest with
              | .ok l => .ok (f :: l)
              | .error e => .error e
        | some v =>
            match bindLoopPlain m rest with
            | .ok l => .ok (⟨f.name, f.tags, setFieldValue f.val v⟩ :: l)
            | .error e => .error e

/-- `ConfyImpl.bindMapToStruct` (confy.go): struct-tag defaults first,
then the field loop. -/
def bindMapToStruct (m : Tree) (s : List GoField) : Except String (List GoField) :=
  match applyStructDefaults s with
  | .error e => .error e
  | .ok s1 => bindLoopPlain m s1

/-- `ConfyImpl.bindValue` (confy.go).  The target checks, in source
order: a non-pointer target (including an untyped nil interface, whose
reflect `Kind` is `Invalid`, not `Ptr`) returns the typed error
`"target must be a pointer"`; a typed nil pointer passes the pointer
check, `Elem()` yields the zero `Value` whose `Kind` (`Invalid`) is not
`Struct`, so the primitive branch evaluates `targetElem.Type()` — which
panics on the zero `Value` (`reflect: call of reflect.Value.Type on zero
Value`).  For a valid struct pointer, a map source binds through
`bindMapToStruct` and any other source is a typed failure. -/
def bindValue (value : Value) (target : Target) : BindOutcome :=
  match target with
  | .nonPointer => .err "target must be a pointer"
  | .nilInterface => .err "target must be a pointer"
  | .nilPointer => .panics
  | .ptrToStruct s =>
      match value with
      | .vmap _ m =>
          match bindMapToStruct m s with
          | .ok s2 => .ok s2
          | .error e => .err e
      | _ => .err "unsupported value type for binding"

/-- `ConfyImpl.bindValueWithOptions` (confy.go): same target prefix as
`bindValue`; for a struct target it applies struct-tag defaults (lowest
tier), deep-merges a map-shaped caller default beneath the data (middle
tier) when `DeepMerge` is set, and then binds the resulting map (highest
tier). -/
def bindValueWithOptions (value : Value) (target : Target) (options : BindOptions) :
    BindOutcome :=
  match target with
  | .nonPointer => .err "target must be a pointer"
  | .nilInterface => .err "target must be a pointer"
  | .nilPointer => .panics
  | .ptrToStruct s =>
      match applyStructDefaults s with
      | .error e => .err e
      | .ok s1 =>
          let value2 :=
            match options.DefaultValue with
            | some (.vmap a dm) =>
                if options.DeepMerge then deepMergeValues (.vmap a dm) value else value
            | _ => value
          match value2 with
          | .vmap _ m =>
              match bindMapToStructWithOptions m s1 options with
              | .ok s2 => .ok s2
              | .error e => .err e
          | _ => .err "unsupported value type for binding"

/-- `ConfyImpl.BindWithOptions` (confy.go), after the key lookup: `data`
is the value at the requested key (`nil` when absent).  A map-shaped
caller default needs no struct flattening here.  When the data is
absent: a caller default replaces it; otherwise `UseDefaults` (or plain
leniency) substitutes an empty tree, and only `ErrorOnMissing` makes the
absence a typed failure. -/
def BindWithOptions (data : Value) (target : Target) (options : BindOptions) :
    BindOutcome :=
  match data with
  | .vnil =>
      match options.DefaultValue with
      | some dv => bindValueWithOptions dv target options
      | none =>
          if options.UseDefaults then bindValueWithOptions (.vmap 0 []) target options
          else if options.ErrorOnMissing then .err "no configuration found for key"
          else bindValueWithOptions (.vmap 0 []) target options
  | d => bindValueWithOptions d target options

/-- C1: binding applies three-tier precedence.  For the struct
`{ Port int `yaml:"port" default:"8080"` }` bound with `UseDefaults` and
`DeepMerge` enabled: (1) with an absent source tree and caller default
`{port: 50}`, the bound port is 50 — the caller default outranks the
struct-tag default 8080; (2) with source tree `{port: 999}` and the same
caller default, the bound port is 999 — the live data wins per leaf
through the deep merge; (3) with no caller default and an absent source,
the struct-tag default 8080 survives; (4) a struct-tag default is written
only into a field at its zero value — a field already holding 7 keeps
7. -/
theorem c1_binding_three_tier_precedence :
    BindWithOptions .vnil
      (.ptrToStruct [⟨"Port", [("yaml", "port"), ("default", "8080")], .fInt 0⟩])
      ⟨some (.vmap 9 [("port", .vint 50)]), true, "yaml", true, false, [], false⟩
      = .ok [⟨"Port", [("yaml", "port"), ("default", "8080")], .fInt 50⟩]
    ∧ BindWithOptions (.vmap 1 [("port", .vint 999)])
      (.ptrToStruct [⟨"Port", [("yaml", "port"), ("default", "8080")], .fInt 0⟩])
      ⟨some (.vmap 9 [("port", .vint 50)]), true, "yaml", true, false, [], false⟩
      = .ok [⟨"Port", [("yaml", "port"), ("default", "8080")], .fInt 999⟩]
    ∧ BindWithOptions .vnil
      (.ptrToStruct [⟨"Port", [("yaml", "port"), ("default", "8080")], .fInt 0⟩])
      ⟨none, true, "yaml", true, false, [], false⟩
      = .ok [⟨"Port", [("yaml", "port"), ("default", "8080")], .fInt 8080⟩]
    ∧ applyStructDefaults [⟨"Port", [("yaml", "port"), ("default", "8080")], .fInt 7⟩]
      = .ok [⟨"Port", [("yaml", "port"), ("default", "8080")], .fInt 7⟩] := by
  exact ⟨rfl, rfl, rfl, rfl⟩

/-- C6 counterexample: a field whose `yaml` tag is `"-"` is not skipped
by the binder.  For `{ Secret string `yaml:"-"` }`, name resolution falls
through the failed guard `tag != "" && tag != "-"` to the `json` tag and
finally to the Go identifier `"Secret"`, and binding against the map
`{Secret: "x"}` reads and writes the field — contradicting the claim
that a path-tag value of `"-"` skips the field entirely. -/
theorem c6_dash_tag_counterexample :
    getFieldNameWithOptions ⟨"Secret", [("yaml", "-")], .fStr ""⟩
      ⟨none, false, "", false, false, [], false⟩ = "Secret"
    ∧ getFieldName ⟨"Secret", [("yaml", "-")], .fStr ""⟩ = "Secret"
    ∧ bindMapToStructWithOptions [("Secret", .vstr "x")]
        [⟨"Secret", [("yaml", "-")], .fStr ""⟩]
        ⟨none, false, "", false, false, [], false⟩
      = .ok [⟨"Secret", [("yaml", "-")], .fStr "x"⟩] := ⟨rfl, rfl, rfl⟩

/-- C6 amended: during struct binding a field's source key name is
resolved in the order: the binding's configured tag namespace (default
`yaml`) when its tag is neither empty nor `"-"`, then the common `yaml`
and `json` namespaces under the same guard, then the field's own Go
identifier; a tag value of `"-"` is not a skip marker — resolution falls
through to the next namespace and ultimately the identifier — and a
field is skipped only when its resolved name is empty. -/
theorem c6_field_name_resolution_amended (f : GoField) (options : BindOptions) :
    ((options.TagName = "" ∨ options.TagName = "yaml") →
      tagGet f.tags "yaml" = "-" → tagGet f.tags "json" = "" →
      getFieldNameWithOptions f options = f.name)
    ∧ (∀ t, tagGet f.tags (if options.TagName = "" then "yaml" else options.TagName) = t →
        t ≠ "" → t ≠ "-" → getFieldNameWithOptions f options = splitCommaHead t)
    ∧ (tagGet f.tags "yaml" = "" → tagGet f.tags "json" = "" →
        tagGet f.tags (if options.TagName = "" then "yaml" else options.TagName) = "" →
        getFieldNameWithOptions f options = f.name)
    ∧ (getFieldNameWithOptions f options = "" → options.Required = [] →
        ∀ m, bindMapToStructWithOptions m [f] options = .ok [f])
    ∧ (∀ n v v2, getFieldNameWithOptions f options = n → n ≠ "" →
        options.IgnoreCase = false → options.Required = [] →
        ∀ m, lookup m n = some v →
        setFieldValueWithDeepMerge f.val v options = .ok v2 →
        bindMapToStructWithOptions m [f] options = .ok [⟨f.name, f.tags, v2⟩]) := by
  refine ⟨?_, ?_, ?_, ?_, ?_⟩
  · intro htn hy hj
    rcases htn with h | h <;> simp [getFieldNameWithOptions, h, hy, hj]
  · intro t ht hne hnd
    simp only [getFieldNameWithOptions]
    rw [ht]
    simp [hne, hnd]
  · intro hy hj ht
    simp only [getFieldNameWithOptions]
    rw [ht]
    simp [hy, hj]
  · intro hn hreq m
    simp [bindMapToStructWithOptions, bindLoop, hn, hreq]
  · intro n v v2 hn hne hic hreq m hl hset
    simp [bindMapToStructWithOptions, bindLoop, hn, hne, hic, hl, hset, hreq]

/-- Witness for the amended C6 at the concrete dash-tagged field. -/
theorem c6_amended_witness :
    getFieldNameWithOptions ⟨"Name", [("yaml", "-")], .fStr ""⟩
      ⟨none, false, "yaml", false, false, [], false⟩ = "Name"
    ∧ bindMapToStructWithOptions [("Name", .vstr "y")]
        [⟨"Name", [("yaml", "-")], .fStr ""⟩]
        ⟨none, false, "yaml", false, false, [], false⟩
      = .ok [⟨"Name", [("yaml", "-")], .fStr "y"⟩] := by
  constructor
  · exact (c6_field_name_resolution_amended
      ⟨"Name", [("yaml", "-")], .fStr ""⟩
      ⟨none, false, "yaml", false, false, [], false⟩).1 (Or.inr rfl) rfl rfl
  · exact (c6_field_name_resolution_amended
      ⟨"Name", [("yaml", "-")], .fStr ""⟩
      ⟨none, false, "yaml", false, false, [], false⟩).2.2.2.2
      "Name" (.vstr "y") (.fStr "y") rfl (by decide) rfl rfl
      [("Name", .vstr "y")] rfl rfl

/-- C7 (code bug): the target checks of `bindValue` and
`bindValueWithOptions`.  A non-pointer target — including an untyped nil
interface, whose reflect `Kind` is `Invalid`, not `Ptr` — produces the
typed error `"target must be a pointer"` before any traversal of the
configuration data, as the claim states.  A typed nil pointer, however,
passes the pointer check; `Elem()` on it returns the zero reflect
`Value`, whose `Kind` (`Invalid`) is not `Struct`, so the code enters the
primitive-target branch and evaluates `targetElem.Type()`, which panics
on the zero `Value` — a crash, not the typed failure the claim and the
spec's error taxonomy (`nil-target`) require. -/
theorem c7_nil_target_code_bug :
    (∀ v : Value, bindValue v .nonPointer = .err "target must be a pointer")
    ∧ (∀ v : Value, bindValue v .nilInterface = .err "target must be a pointer")
    ∧ (∀ v : Value, bindValue v .nilPointer = .panics)
    ∧ (∀ (v : Value) (o : BindOptions),
        bindValueWithOptions v .nonPointer o = .err "target must be a pointer")
    ∧ (∀ (v : Value) (o : BindOptions),
        bindValueWithOptions v .nilInterface o = .err "target must be a pointer")
    ∧ (∀ (v : Value) (o : BindOptions),
        bindValueWithOptions v .nilPointer o = .panics) :=
  ⟨fun _ => rfl, fun _ => rfl, fun _ => rfl,
    fun _ _ => rfl, fun _ _ => rfl, fun _ _ => rfl⟩

/-! ## Change notification (confy.go)

`watchCallbacks` is a map from watched key to the list of registered
callbacks; callbacks are modelled by opaque identifiers (`Nat`).
`notifyWatchCallbacks` iterates the whole registry — it never looks at
which key a mutation touched — and spawns one goroutine
(`go callback(key, value)`) per registered callback; the list returned by
the model is the multiset of spawned asynchronous invocations with their
arguments. -/

/-- The `watchCallbacks` registry: watched key → registered callbacks. -/
abbrev WatchRegistry := List (String × List Nat)

/-- `ConfyImpl.WatchWithCallback` (confy.go): append the callback to the
slice registered under the key, creating the slice if needed. -/
def WatchWithCallback : WatchRegistry → String → Nat → WatchRegistry
  | [], key, cb => [(key, [cb])]
  | (k, cbs) :: rest, key, cb =>
      if k = key then (k, cbs ++ [cb]) :: rest
      else (k, cbs) :: WatchWithCallback rest key cb

/-- `ConfyImpl.notifyWatchCallbacks` (confy.go): for every watched key —
regardless of what changed — read its current value and spawn one
asynchronous invocation per registered callback. -/
def notifyWatchCallbacks (data : Tree) : WatchRegistry → List (Nat × String × Value)
  | [] => []
  | (k, cbs) :: rest =>
      cbs.map (fun cb => (cb, k, getValue data k)) ++ notifyWatchCallbacks data rest

/-- `ConfyImpl.Set` (confy.go): write the value, then notify — the watch
dispatches read from the tree after the mutation.  The result is the new
tree plus the spawned watch invocations. -/
def SetDispatches (data : Tree) (regs : WatchRegistry) (key : String) (v : Value) :
    Tree × List (Nat × String × Value) :=
  (setValue data key v, notifyWatchCallbacks (setValue data key v) regs)

theorem filter_cb_map (cb : Nat) (k0 : String) (w : Value) :
    ∀ cbs : List Nat, cb ∉ cbs →
      (cbs.map (fun cb2 => (cb2, k0, w))).filter (fun d => d.1 = cb) = [] := by
  intro cbs
  induction cbs with
  | nil => intro _; simp
  | cons c cs ih =>
      intro h
      simp only [List.mem_cons] at h
      push_neg at h
      simp only [List.map_cons, List.filter_cons]
      rw [if_neg (by simpa using (h.1).symm)]
      exact ih h.2

theorem notify_filter_absent (data : Tree) (cb : Nat) :
    ∀ regs : WatchRegistry, (∀ p ∈ regs, cb ∉ p.2) →
      (notifyWatchCallbacks data regs).filter (fun d => d.1 = cb) = [] := by
  intro regs
  induction regs with
  | nil => intro _; simp [notifyWatchCallbacks]
  | cons p rest ih =>
      intro h
      obtain ⟨k, cbs⟩ := p
      have hcb : cb ∉ cbs := h (k, cbs) (List.mem_cons_self _ _)
      have hrest := ih fun q hq => h q (List.mem_cons_of_mem _ hq)
      simp only [notifyWatchCallbacks, List.filter_append, hrest, List.append_nil]
      exact filter_cb_map cb k (getValue data k) cbs hcb

theorem notify_filter_registered (data : Tree) (cb : Nat) (k : String) :
    ∀ regs : WatchRegistry, (∀ p ∈ regs, cb ∉ p.2) →
      (notifyWatchCallbacks data (WatchWithCallback regs k cb)).filter
          (fun d => d.1 = cb)
        = [(cb, k, getValue data k)] := by
  intro regs
  induction regs with
  | nil =>
      intro _
      simp [WatchWithCallback, notifyWatchCallbacks]
  | cons p rest ih =>
      intro h
      obtain ⟨k0, cbs⟩ := p
      have hcb : cb ∉ cbs := h (k0, cbs) (List.mem_cons_self _ _)
      have hrest : ∀ p ∈ rest, cb ∉ p.2 := fun q hq => h q (List.mem_cons_of_mem _ hq)
      by_cases hk : k0 = k
      · subst hk
        simp only [WatchWithCallback, if_pos rfl, notifyWatchCallbacks,
          List.filter_append, List.map_append]
        rw [notify_filter_absent data cb rest hrest]
        have hfirst := filter_cb_map cb k0 (getValue data k0) cbs hcb
        simp [hfirst]
      · simp only [WatchWithCallback, if_neg hk, notifyWatchCallbacks,
          List.filter_append]
        rw [ih hrest]
        have hfirst := filter_cb_map cb k0 (getValue data k0) cbs hcb
        simp [hfirst]

/-- C10: after `WatchWithCallback(k, cb)` registers a callback that was
not previously registered anywhere, every subsequent `Set(k2, v)` — for
every key `k2`, equal to `k` or not — spawns exactly one asynchronous
invocation of `cb`, with arguments `(k, current value stored at k)` read
from the tree after the mutation: per-key callbacks are not filtered by
which key the mutation touched. -/
theorem c10_watch_fires_on_every_set (data : Tree) (regs : WatchRegistry)
    (k : String) (cb : Nat) (k2 : String) (v : Value)
    (hfresh : ∀ p ∈ regs, cb ∉ p.2) :
    (SetDispatches data (WatchWithCallback regs k cb) k2 v).2.filter
        (fun d => d.1 = cb)
      = [(cb, k, getValue (setValue data k2 v) k)] := by
  simp only [SetDispatches]
  exact notify_filter_registered (setValue data k2 v) cb k regs hfresh

/-- Witness for C10: a callback watching `"k"` fires (once, with the
value at `"k"`) on a `Set` of the unrelated key `"other"`. -/
theorem c10_witness :
    (SetDispatches [("k", Value.vstr "x")] (WatchWithCallback [] "k" 42) "other"
        (Value.vint 1)).2.filter (fun d => d.1 = 42)
      = [(42, "k", Value.vstr "x")] := by
  have h := c10_watch_fires_on_every_set [("k", Value.vstr "x")] [] "k" 42 "other"
    (Value.vint 1) (by simp)
  simpa using h

end Confy
